import Mathlib

/-!
Verification of the Timestream SQL validator
(`pkg/timestream/validator/validator.go`) against its natural-language
specification.  The Go source is shallowly embedded below: strings are
modelled as lists of characters (the validator treats the input byte-wise,
and every behaviour verified here concerns ASCII inputs, on which Go's
byte-wise treatment and this model agree), Go `int` depths are modelled as
`Int` with the explicit clamping the source performs, and the index-based
scanning loops of the source become recursions on an explicit fuel that is
always instantiated above the loop's maximal iteration count, so that every
definition evaluates by kernel reduction.  Exhausted fuel returns the same
value as the loop's normal exit, so the fuelled functions agree with the
Go loops whenever the fuel dominates the iteration count.
-/

set_option maxRecDepth 100000
set_option maxHeartbeats 1600000

/- ------------------- character classes (Go semantics) ------------------- -/

/-- The single-quote character, written numerically. -/
def squote : Char := Char.ofNat 39

/-- The double-quote character, written numerically. -/
def dquote : Char := Char.ofNat 34

/-- Go `unicode.IsSpace(rune(b))` restricted to single-byte runes:
ASCII whitespace plus NEL (0x85) and NBSP (0xA0). -/
def goIsSpace (c : Char) : Bool :=
  c.toNat = 32 || c.toNat = 9 || c.toNat = 10 || c.toNat = 11 ||
  c.toNat = 12 || c.toNat = 13 || c.toNat = 133 || c.toNat = 160

/-- Go `unicode.IsLetter(rune(b))` restricted to single-byte runes:
ASCII letters plus the Latin-1 letters. -/
def goIsLetter (c : Char) : Bool :=
  (65 ≤ c.toNat && c.toNat ≤ 90) || (97 ≤ c.toNat && c.toNat ≤ 122) ||
  c.toNat = 170 || c.toNat = 181 || c.toNat = 186 ||
  (192 ≤ c.toNat && c.toNat ≤ 214) || (216 ≤ c.toNat && c.toNat ≤ 246) ||
  (248 ≤ c.toNat && c.toNat ≤ 255)

/-- Go `unicode.IsDigit(rune(b))` restricted to single-byte runes. -/
def goIsDigit (c : Char) : Bool := 48 ≤ c.toNat && c.toNat ≤ 57

/-- `isIdentStart` from validator.go: letter, `_` or `$`. -/
def isIdentStart (c : Char) : Bool := goIsLetter c || c = '_' || c = '$'

/-- `isIdentPart` from validator.go: letter, digit, `_`, `.` or `$`. -/
def isIdentPart (c : Char) : Bool :=
  goIsLetter c || goIsDigit c || c = '_' || c = '.' || c = '$'

/-- `isNumStart` from validator.go. -/
def isNumStart (c : Char) : Bool := goIsDigit c

/-- `isNum` from validator.go. -/
def isNum (c : Char) : Bool := goIsDigit c

/-- Go `strings.ToLower` on a single character; the validator only ever
lowercases ASCII text, so the ASCII mapping A-Z to a-z is the relevant
behaviour. -/
def toLowerChar (c : Char) : Char :=
  if 65 ≤ c.toNat ∧ c.toNat ≤ 90 then Char.ofNat (c.toNat + 32) else c

/-- Go `strings.ToLower` over a character list. -/
def toLowerList (cs : List Char) : List Char := cs.map toLowerChar

/- ------------------------------ tokens ------------------------------ -/

/-- `tokenKind` from validator.go. -/
inductive tokenKind : Type where
  | tkIdent : tokenKind
  | tkKeyword : tokenKind
  | tkString : tokenKind
  | tkNumber : tokenKind
  | tkSymbol : tokenKind
deriving DecidableEq

export tokenKind (tkIdent tkKeyword tkString tkNumber tkSymbol)

/-- `token` from validator.go; `depth` is a Go `int`, hence `Int` here
(the lexer clamps it so that emitted depths are never negative). -/
structure token : Type where
  val : String
  kind : tokenKind
  depth : Int
deriving DecidableEq

/-- The `keywords` set from validator.go. -/
def keywordList : List String :=
  ["select", "from", "where", "group", "by", "order", "having",
   "union", "intersect", "except", "join", "left", "right", "full",
   "outer", "inner", "cross", "on", "as", "with", "lateral",
   "between", "and", "or", "not", "in", "exists"]

/- --------------------------- stripComments --------------------------- -/

/-- The loop of `stripComments` from validator.go; `inLine` and `inBlock`
are the two comment-state flags, consulted in source order.  The Go loop
peeks one byte ahead for the two-character comment markers, hence the
two-deep match; a marker-start character that is the last character of the
input falls through to the default branch exactly as in the source. -/
def stripCommentsAux (inLine inBlock : Bool) : List Char → List Char
  | [] => []
  | [c] =>
    if inLine then (if c.toNat = 10 then [c] else [])
    else if inBlock then []
    else [c]
  | c :: c2 :: rest2 =>
    if inLine then
      if c.toNat = 10 then c :: stripCommentsAux false inBlock (c2 :: rest2)
      else stripCommentsAux true inBlock (c2 :: rest2)
    else if inBlock then
      if c = '*' && c2 = '/' then stripCommentsAux inLine false rest2
      else stripCommentsAux inLine true (c2 :: rest2)
    else
      if c = '-' && c2 = '-' then stripCommentsAux true inBlock rest2
      else if c = '/' && c2 = '*' then stripCommentsAux inLine true rest2
      else c :: stripCommentsAux inLine inBlock (c2 :: rest2)

/-- `stripComments` from validator.go. -/
def stripComments (s : String) : String :=
  String.mk (stripCommentsAux false false s.toList)

/- ------------------------------- lexer ------------------------------- -/

/-- The characters consumed by `readString` in validator.go after the
opening quote: everything up to and including the closing quote, with a
doubled quote treated as an escape; an unterminated literal consumes all
remaining input. -/
def readStrTake (q : Char) : List Char → List Char
  | [] => []
  | [c] => [c]
  | c :: c2 :: rest2 =>
    if c = q then
      (if c2 = q then c :: c2 :: readStrTake q rest2 else [c])
    else c :: readStrTake q (c2 :: rest2)

/-- The rest of the input after `readString` in validator.go returns
(the position just past the closing quote, or the end of the input). -/
def readStrDrop (q : Char) : List Char → List Char
  | [] => []
  | [_] => []
  | c :: c2 :: rest2 =>
    if c = q then
      (if c2 = q then readStrDrop q rest2 else c2 :: rest2)
    else readStrDrop q (c2 :: rest2)

theorem readStrDrop_length_le (q : Char) :
    ∀ cs : List Char, (readStrDrop q cs).length ≤ cs.length
  | [] => by simp [readStrDrop]
  | [c] => by simp [readStrDrop]
  | c :: c2 :: rest2 => by
    unfold readStrDrop
    by_cases h : c = q
    · by_cases h2 : c2 = q
      · simp only [h, h2, if_pos rfl]
        exact Nat.le_trans (readStrDrop_length_le q rest2) (by simp; omega)
      · simp [h, h2]
    · simp only [h, if_neg h]
      exact Nat.le_trans (readStrDrop_length_le q (c2 :: rest2)) (by simp)

/-- The main loop of `lex` from validator.go, carrying the running
parenthesis depth.  Each branch mirrors one branch of the Go loop in
source order; the Go `strings.ToLower` applied to the two-character
operators is the identity there and is omitted.  The fuel argument is
instantiated by `lex` above the input length, so it never runs out: every
iteration consumes at least one character. -/
def lexAux : Nat → Int → List Char → List token
  | 0, _, _ => []
  | _ + 1, _, [] => []
  | fuel + 1, depth, c :: rest =>
    if goIsSpace c then lexAux fuel depth rest
    else if c = '(' then
      ⟨"(", tkSymbol, depth⟩ :: lexAux fuel (depth + 1) rest
    else if c = ')' then
      let d := if depth - 1 < 0 then 0 else depth - 1
      ⟨")", tkSymbol, d⟩ :: lexAux fuel d rest
    else if c = squote || c = dquote then
      let body := readStrTake c rest
      let rest2 := readStrDrop c rest
      (if c = dquote then (⟨String.mk (toLowerList (c :: body)), tkIdent, depth⟩ : token)
       else ⟨String.mk (c :: body), tkString, depth⟩) :: lexAux fuel depth rest2
    else if isNumStart c then
      let body := rest.takeWhile (fun ch => isNum ch || ch = '.')
      let rest2 := rest.dropWhile (fun ch => isNum ch || ch = '.')
      ⟨String.mk (c :: body), tkNumber, depth⟩ :: lexAux fuel depth rest2
    else if isIdentStart c then
      let body := rest.takeWhile isIdentPart
      let rest2 := rest.dropWhile isIdentPart
      let word := String.mk (toLowerList (c :: body))
      (if word ∈ keywordList then (⟨word, tkKeyword, depth⟩ : token)
       else ⟨word, tkIdent, depth⟩) :: lexAux fuel depth rest2
    else
      match rest.head? with
      | some n =>
        if (c = '>' && n = '=') || (c = '<' && (n = '=' || n = '>')) ||
           (c = '!' && n = '=') then
          ⟨String.mk [c, n], tkSymbol, depth⟩ :: lexAux fuel depth rest.tail
        else ⟨String.mk [toLowerChar c], tkSymbol, depth⟩ :: lexAux fuel depth rest
      | none => [⟨String.mk [toLowerChar c], tkSymbol, depth⟩]

/-- `lex` from validator.go. -/
def lex (s : String) : List token := lexAux (s.toList.length + 1) 0 s.toList




/- ---------------------- index-scanning helpers ---------------------- -/

/-- `isTimeIdentifierAt` from validator.go: the token at `i` is an
identifier whose (already case-folded) value is exactly `time`. -/
def isTimeIdentifierAt (toks : List token) (i : Nat) : Bool :=
  match toks[i]? with
  | some t => t.kind = tkIdent && t.val = "time"
  | none => false

/-- `isCompareOp` from validator.go. -/
def isCompareOp (s : String) : Bool :=
  s = "=" || s = "<" || s = ">" || s = "<=" || s = ">=" || s = "<>" || s = "!="

/-- `findNextKeywordAtDepth` loop from validator.go: forward scan that
aborts (Go returns -1, modelled as `none`) when the depth drops below the
given one, skips other depths, and returns the first matching keyword. -/
def findNextKeywordAtDepthAux (toks : List token) (depth : Int) (word : String) :
    Nat → Nat → Option Nat
  | 0, _ => none
  | fuel + 1, i =>
    match toks[i]? with
    | none => none
    | some t =>
      if t.depth < depth then none
      else if t.depth ≠ depth then findNextKeywordAtDepthAux toks depth word fuel (i + 1)
      else if t.kind = tkKeyword ∧ t.val = word then some i
      else findNextKeywordAtDepthAux toks depth word fuel (i + 1)

/-- `findNextKeywordAtDepth` from validator.go. -/
def findNextKeywordAtDepth (toks : List token) (start : Nat) (depth : Int)
    (word : String) : Option Nat :=
  findNextKeywordAtDepthAux toks depth word (toks.length + 1) start

/-- `findNextKeywordBetweenAtDepth` loop from validator.go (no depth-drop
abort; bounded by `stop`). -/
def findNextKeywordBetweenAtDepthAux (toks : List token) (stopN : Nat) (depth : Int)
    (word : String) : Nat → Nat → Option Nat
  | 0, _ => none
  | fuel + 1, i =>
    match toks[i]? with
    | none => none
    | some t =>
      if i < stopN then
        if t.depth ≠ depth then findNextKeywordBetweenAtDepthAux toks stopN depth word fuel (i + 1)
        else if t.kind = tkKeyword ∧ t.val = word then some i
        else findNextKeywordBetweenAtDepthAux toks stopN depth word fuel (i + 1)
      else none
    
/-- `findNextKeywordBetweenAtDepth` from validator.go, including its
negative-`stop` clamp. -/
def findNextKeywordBetweenAtDepth (toks : List token) (start : Nat) (stop : Int)
    (depth : Int) (word : String) : Option Nat :=
  let stopN := if stop < 0 then toks.length else stop.toNat
  findNextKeywordBetweenAtDepthAux toks stopN depth word (toks.length + 1) start

/-- The clause-terminator keywords of `findNextTerminatorAtDepth`. -/
def isTerminatorKw (t : token) : Bool :=
  t.val = "group" || t.val = "order" || t.val = "having" ||
  t.val = "union" || t.val = "intersect" || t.val = "except"

/-- `findNextTerminatorAtDepth` loop from validator.go: first index whose
depth drops below `depth` or holding a terminator keyword at `depth`,
defaulting to the token count. -/
def findNextTerminatorAtDepthAux (toks : List token) (depth : Int) : Nat → Nat → Nat
  | 0, _ => toks.length
  | fuel + 1, i =>
    match toks[i]? with
    | none => toks.length
    | some t =>
      if t.depth < depth then i
      else if t.depth = depth ∧ t.kind = tkKeyword ∧ isTerminatorKw t = true then i
      else findNextTerminatorAtDepthAux toks depth fuel (i + 1)

/-- `findNextTerminatorAtDepth` from validator.go. -/
def findNextTerminatorAtDepth (toks : List token) (start : Nat) (depth : Int) : Nat :=
  findNextTerminatorAtDepthAux toks depth (toks.length + 1) start

/- ----------------------- findTopLevelOrBranches ----------------------- -/

/-- The loop of `findTopLevelOrBranches` from validator.go: each keyword
`or` at exactly `depth` inside the scanned range closes the current branch
and opens the next; the final branch always extends to `stopN`. -/
def orBranchesAux (toks : List token) (depth : Int) (stopN : Nat) :
    Nat → Nat → Nat → List (Nat × Nat)
  | 0, _, cur => [(cur, stopN)]
  | fuel + 1, i, cur =>
    match toks[i]? with
    | some t =>
      if i < stopN then
        if t.depth = depth ∧ t.kind = tkKeyword ∧ t.val = "or" then
          (cur, i) :: orBranchesAux toks depth stopN fuel (i + 1) (i + 1)
        else orBranchesAux toks depth stopN fuel (i + 1) cur
      else [(cur, stopN)]
    | none => [(cur, stopN)]

/-- `findTopLevelOrBranches` from validator.go, including its
negative-`stop` clamp. -/
def findTopLevelOrBranches (toks : List token) (start : Nat) (stop : Int)
    (depth : Int) : List (Nat × Nat) :=
  let stopN := if stop < 0 then toks.length else stop.toNat
  orBranchesAux toks depth stopN (toks.length + 1) start start

/- ----------------------- fromStartsWithBaseTable ----------------------- -/

/-- The skip loop `for j < stop && j < len(toks) && toks[j].depth != depth`
shared by `whereHasTimePredicate` and `fromStartsWithBaseTable`. -/
def skipDiffDepth (toks : List token) (stopN : Nat) (depth : Int) : Nat → Nat → Nat
  | 0, j => j
  | fuel + 1, j =>
    match toks[j]? with
    | some t =>
      if j < stopN ∧ t.depth ≠ depth then skipDiffDepth toks stopN depth fuel (j + 1)
      else j
    | none => j

/-- The leading advance loop of `fromStartsWithBaseTable` from
validator.go: skip other depths and stray symbols, fail (Go `return
false`, modelled as `none`) on `(` or `select`, and stop at the first
other meaningful token. -/
def fromAdvance (toks : List token) (stopN : Nat) (depth : Int) : Nat → Nat → Option Nat
  | 0, i => some i
  | fuel + 1, i =>
    match toks[i]? with
    | some t =>
      if i < stopN then
        if t.depth ≠ depth then fromAdvance toks stopN depth fuel (i + 1)
        else if t.kind = tkSymbol then
          (if t.val = "(" then none else fromAdvance toks stopN depth fuel (i + 1))
        else if t.kind = tkKeyword then
          (if t.val = "select" then none else fromAdvance toks stopN depth fuel (i + 1))
        else some i
      else some i
    | none => some i

/-- The inner loop of `fromStartsWithBaseTable` that, after a `.` symbol,
seeks the following identifier while skipping noise. -/
def dotSeekIdent (toks : List token) (stopN : Nat) (depth : Int) : Nat → Nat → Bool
  | 0, _ => false
  | fuel + 1, k =>
    match toks[k]? with
    | some t =>
      if k < stopN then
        if t.depth ≠ depth then dotSeekIdent toks stopN depth fuel (k + 1)
        else if t.kind = tkSymbol then dotSeekIdent toks stopN depth fuel (k + 1)
        else decide (t.kind = tkIdent)
      else false
    | none => false

/-- The loop of `fromStartsWithBaseTable` that looks for the pattern
`ident (noise) . (noise) ident` after a dot-free leading identifier. -/
def dotSeek (toks : List token) (stopN : Nat) (depth : Int) : Nat → Nat → Bool
  | 0, _ => false
  | fuel + 1, j =>
    match toks[j]? with
    | some t =>
      if j < stopN then
        if t.depth ≠ depth then dotSeek toks stopN depth fuel (j + 1)
        else if t.kind = tkSymbol then
          (if t.val ≠ "." then dotSeek toks stopN depth fuel (j + 1)
           else dotSeekIdent toks stopN depth (toks.length + 1) (j + 1))
        else false
      else false
    | none => false

/-- `stripQuotes` from validator.go. -/
def stripQuotes (s : String) : String :=
  let l := s.toList
  if 2 ≤ l.length ∧
     ((l.head? = some dquote ∧ l.getLast? = some dquote) ∨
      (l.head? = some squote ∧ l.getLast? = some squote)) then
    String.mk (toLowerList ((l.drop 1).dropLast))
  else String.mk (toLowerList l)

/-- `fromStartsWithBaseTable` from validator.go. -/
def fromStartsWithBaseTable (toks : List token) (start stopN : Nat) (depth : Int) : Bool :=
  match fromAdvance toks stopN depth (toks.length + 1) start with
  | none => false
  | some i =>
    match toks[i]? with
    | none => false
    | some t =>
      if i < stopN then
        if t.kind ≠ tkIdent then false
        else if (stripQuotes t.val).toList.contains '.' then
          let j := skipDiffDepth toks stopN depth (toks.length + 1) (i + 1)
          (match toks[j]? with
           | some tj => if j < stopN ∧ tj.kind = tkSymbol ∧ tj.val = "(" then false else true
           | none => true)
        else dotSeek toks stopN depth (toks.length + 1) (i + 1)
      else false

/- ------------------------ whereHasTimePredicate ------------------------ -/

/-- The backward scan of `whereHasTimePredicate` from validator.go: from
`k = i - 1` down, while `k >= start && k >= i - 6`, skip `not` keywords
and succeed on a `time` identifier at the `between` token's depth.  The
fuel is instantiated at 7, above the window's maximal 6 iterations. -/
def betweenLookback (toks : List token) (start i : Nat) (depth : Int) :
    Nat → Int → Bool
  | 0, _ => false
  | fuel + 1, k =>
    if (start : Int) ≤ k ∧ (i : Int) - 6 ≤ k then
      match toks[k.toNat]? with
      | some t =>
        if t.kind = tkKeyword ∧ t.val = "not" then
          betweenLookback toks start i depth fuel (k - 1)
        else if isTimeIdentifierAt toks k.toNat ∧ t.depth = depth then true
        else betweenLookback toks start i depth fuel (k - 1)
      | none => betweenLookback toks start i depth fuel (k - 1)
    else false

/-- The forward lookahead of `whereHasTimePredicate` after a `time`
identifier at index `i`: skip tokens at other depths, then accept `not
between`, `between`, or a comparison operator. -/
def timeFollow (toks : List token) (stopN : Nat) (i : Nat) (depth : Int) : Bool :=
  let j := skipDiffDepth toks stopN depth (toks.length + 1) (i + 1)
  match toks[j]? with
  | some tj =>
    (if j < stopN ∧ tj.kind = tkKeyword ∧ tj.val = "not" then
       let k := skipDiffDepth toks stopN depth (toks.length + 1) (j + 1)
       (match toks[k]? with
        | some tk => decide (k < stopN ∧ tk.kind = tkKeyword ∧ tk.val = "between")
        | none => false)
     else false)
    || decide (j < stopN ∧ tj.kind = tkKeyword ∧ tj.val = "between")
    || decide (j < stopN ∧ tj.kind = tkSymbol ∧ isCompareOp tj.val = true)
  | none => false

/-- The main loop of `whereHasTimePredicate` from validator.go. -/
def whereHasTimePredicateAux (toks : List token) (stopN start : Nat) : Nat → Nat → Bool
  | 0, _ => false
  | fuel + 1, i =>
    match toks[i]? with
    | some t =>
      if i < stopN then
        if isTimeIdentifierAt toks i ∧ timeFollow toks stopN i t.depth = true then true
        else if t.kind = tkKeyword ∧ t.val = "between" ∧
                betweenLookback toks start i t.depth 7 ((i : Int) - 1) = true then true
        else whereHasTimePredicateAux toks stopN start fuel (i + 1)
      else false
    | none => false

/-- `whereHasTimePredicate` from validator.go, including its
negative-`stop` clamp. -/
def whereHasTimePredicate (toks : List token) (start : Nat) (stop : Int) : Bool :=
  let stopN := if stop < 0 then toks.length else stop.toNat
  whereHasTimePredicateAux toks stopN start (toks.length + 1) start

/- --------------------- whereHasMeasureNamePredicate --------------------- -/

/-- The token at `i` has the given kind and value. -/
def tokAt (toks : List token) (i : Nat) (k : tokenKind) (v : String) : Bool :=
  match toks[i]? with
  | some t => t.kind = k && t.val = v
  | none => false

/-- The token at `i` has the given kind. -/
def tokKindAt (toks : List token) (i : Nat) (k : tokenKind) : Bool :=
  match toks[i]? with
  | some t => t.kind = k
  | none => false

/-- Pattern 1 of `whereHasMeasureNamePredicate` from validator.go, checked
at a `regexp_like` identifier at index `i`: the exact token sequence
`( measure_name , StringLiteral )` follows within bounds. -/
def regexpPatternAt (toks : List token) (stopN i : Nat) : Bool :=
  decide (i + 5 < stopN) && decide (i + 5 < toks.length) &&
  tokAt toks (i + 1) tkSymbol "(" && tokAt toks (i + 2) tkIdent "measure_name" &&
  tokAt toks (i + 3) tkSymbol "," && tokKindAt toks (i + 4) tkString &&
  tokAt toks (i + 5) tkSymbol ")"

/-- Pattern 2 of `whereHasMeasureNamePredicate` from validator.go, checked
at a `measure_name` identifier at index `i`: `= StringLiteral` follows
within bounds. -/
def eqPatternAt (toks : List token) (stopN i : Nat) : Bool :=
  decide (i + 2 < stopN) && decide (i + 2 < toks.length) &&
  tokAt toks (i + 1) tkSymbol "=" && tokKindAt toks (i + 2) tkString

/-- The loop of `whereHasMeasureNamePredicate` from validator.go, carrying
the `foundValid` and `foundInvalid` flags; valid patterns are consumed
whole (6 or 3 tokens), any other `measure_name` occurrence poisons the
scan. -/
def measureAux (toks : List token) (stopN : Nat) : Nat → Nat → Bool → Bool → Bool
  | 0, _, fv, fi => fv && !fi
  | fuel + 1, i, fv, fi =>
    match toks[i]? with
    | some t =>
      if i < stopN then
        if t.kind = tkIdent ∧ t.val = "regexp_like" ∧ regexpPatternAt toks stopN i = true then
          measureAux toks stopN fuel (i + 6) true fi
        else if t.kind = tkIdent ∧ t.val = "measure_name" then
          (if eqPatternAt toks stopN i = true then measureAux toks stopN fuel (i + 3) true fi
           else measureAux toks stopN fuel (i + 1) fv true)
        else measureAux toks stopN fuel (i + 1) fv fi
      else fv && !fi
    | none => fv && !fi

/-- `whereHasMeasureNamePredicate` from validator.go, including its
negative-`stop` clamp. -/
def whereHasMeasureNamePredicate (toks : List token) (start : Nat) (stop : Int) : Bool :=
  let stopN := if stop < 0 then toks.length else stop.toNat
  measureAux toks stopN (toks.length + 1) start false false

/- ------------------------------ Validate ------------------------------ -/

/-- `Issue` from validator.go. -/
structure Issue : Type where
  Snippet : String
  Reason : String
  AtDepth : Int
deriving DecidableEq

/-- The snippet-builder loop of `snippetAroundTokens` from validator.go
(Go measures the builder in bytes; on the ASCII text involved this equals
the character count used here). -/
def snippetAux (toks : List token) (stopN : Nat) : Nat → Nat → String → String
  | 0, _, b => b
  | fuel + 1, i, b =>
    if i < stopN then
      if 220 < b.length then b ++ " ..."
      else
        let b2 := b ++ (match toks[i]? with | some t => t.val | none => "")
        let b3 := if i + 1 < stopN then b2 ++ " " else b2
        snippetAux toks stopN fuel (i + 1) b3
    else b

/-- `snippetAroundTokens` from validator.go. -/
def snippetAroundTokens (toks : List token) (start : Nat) (stop : Int) : String :=
  let stopN := if stop < 0 ∨ (toks.length : Int) < stop then toks.length else stop.toNat
  (snippetAux toks stopN (toks.length + 1) start "").trim

/-- The select-site enumeration of `Validate` from validator.go: one
`(index, depth)` pair per `select` keyword, in order. -/
def selectSites (toks : List token) : List (Nat × Int) :=
  (List.range toks.length).filterMap (fun i =>
    match toks[i]? with
    | some t => if t.kind = tkKeyword ∧ t.val = "select" then some (i, t.depth) else none
    | none => none)

/-- The per-select-site body of `Validate` from validator.go, yielding the
issues that site contributes. -/
def processSite (toks : List token) (selIdx : Nat) (depth : Int) : List Issue :=
  match findNextKeywordAtDepth toks (selIdx + 1) depth "from" with
  | none => []
  | some fromIdx =>
    let stopIdx := findNextTerminatorAtDepth toks (fromIdx + 1) depth
    if fromStartsWithBaseTable toks (fromIdx + 1) stopIdx depth = false then []
    else
      match findNextKeywordBetweenAtDepth toks (fromIdx + 1) (stopIdx : Int) depth "where" with
      | none =>
        [⟨snippetAroundTokens toks selIdx (stopIdx : Int), "missing WHERE clause", depth⟩]
      | some whereIdx =>
        let whereStop := findNextTerminatorAtDepth toks (whereIdx + 1) depth
        let branches := findTopLevelOrBranches toks (whereIdx + 1) (whereStop : Int) depth
        let hasMissingTime := branches.any (fun b => !(whereHasTimePredicate toks b.1 (b.2 : Int)))
        let hasMissingMeasure :=
          branches.any (fun b => !(whereHasMeasureNamePredicate toks b.1 (b.2 : Int)))
        let hasInvalidOr := decide (1 < branches.length)
        (if hasMissingTime then
           [⟨snippetAroundTokens toks selIdx (whereStop : Int),
             if hasInvalidOr then "an OR branch in WHERE clause lacks a time predicate"
             else "WHERE clause lacks a time predicate", depth⟩]
         else []) ++
        (if hasMissingMeasure then
           [⟨snippetAroundTokens toks selIdx (whereStop : Int),
             if hasInvalidOr then
               "an OR branch in WHERE clause lacks a valid measure_name predicate (requires = \x27...\x27 or regexp_like)"
             else
               "WHERE clause lacks a valid measure_name predicate (requires = \x27...\x27 or regexp_like)",
             depth⟩]
         else [])

/-- `Validate` from validator.go: strip comments, lex, enumerate select
sites, validate each, and succeed exactly when no issue was produced. -/
def Validate (sql : String) : Bool × List Issue :=
  let toks := lex (stripComments sql)
  let issues := ((selectSites toks).map (fun s => processSite toks s.1 s.2)).flatten
  (issues.isEmpty, issues)


/- --------------------- small extraction lemmas --------------------- -/

theorem tokAt_iff {toks : List token} {i : Nat} {k : tokenKind} {v : String} :
    tokAt toks i k v = true ↔ ∃ t, toks[i]? = some t ∧ t.kind = k ∧ t.val = v := by
  unfold tokAt
  cases h : toks[i]? with
  | none => simp
  | some t => simp [h]

theorem tokKindAt_iff {toks : List token} {i : Nat} {k : tokenKind} :
    tokKindAt toks i k = true ↔ ∃ t, toks[i]? = some t ∧ t.kind = k := by
  unfold tokKindAt
  cases h : toks[i]? with
  | none => simp
  | some t => simp [h]

theorem isTimeIdentifierAt_iff {toks : List token} {i : Nat} :
    isTimeIdentifierAt toks i = true ↔
      ∃ t, toks[i]? = some t ∧ t.kind = tkIdent ∧ t.val = "time" := by
  unfold isTimeIdentifierAt
  cases h : toks[i]? with
  | none => simp
  | some t => simp [h]

/- ------------------------------- C9 ------------------------------- -/

/-- C9: for every input, `Validate` returns `ok = true` if and only if the
returned issue list is empty. -/
theorem C9_ok_iff_issues_empty (sql : String) :
    (Validate sql).1 = true ↔ (Validate sql).2 = [] := by
  simp [Validate, List.isEmpty_iff]

/- ------------------------------- C10 ------------------------------- -/

/-- C10: comment stripping is oblivious to string-literal context: in the
query `SELECT * FROM mydb.s1 WHERE measure_name = 'a--b' AND time > 5` the
`--` inside the single-quoted literal is taken for a line comment, the
rest of the line (including the time predicate) is discarded before
lexing, and validation fails; the same query with the benign literal `'ab'`
passes, so the outcome changes. -/
theorem C10_comment_marker_inside_literal :
    stripComments "SELECT * FROM mydb.s1 WHERE measure_name = \x27a--b\x27 AND time > 5" =
      "SELECT * FROM mydb.s1 WHERE measure_name = \x27a" ∧
    (Validate "SELECT * FROM mydb.s1 WHERE measure_name = \x27a--b\x27 AND time > 5").1 = false ∧
    (Validate "SELECT * FROM mydb.s1 WHERE measure_name = \x27ab\x27 AND time > 5").1 = true := by
  refine ⟨by decide, by decide, by decide⟩

/- ------------------------------- C4 ------------------------------- -/

/-- C4 counterexample: in `lex "(a)"` the delimiters are emitted at depth
0 while the token they bound is at depth 1, so the delimiters do NOT carry
the same depth value as the tokens inside the parenthesized group (they
carry the enclosing context's depth). -/
theorem C4_counterexample :
    (lex "(a)").map token.depth = [0, 1, 0] ∧
    ¬ ((lex "(a)")[0]?.map token.depth = (lex "(a)")[1]?.map token.depth) := by
  refine ⟨by decide, by decide⟩

/- ------------------------------- C8 ------------------------------- -/

theorem readStrTake_no_quote (q : Char) :
    ∀ cs : List Char, q ∉ cs → readStrTake q cs = cs
  | [], _ => rfl
  | [c], _ => rfl
  | c :: c2 :: rest2, h => by
    have hc : ¬ c = q := fun hcq => h (hcq ▸ List.mem_cons_self c _)
    have h2 : q ∉ c2 :: rest2 := fun hm => h (List.mem_cons_of_mem c hm)
    unfold readStrTake
    simp [hc, readStrTake_no_quote q (c2 :: rest2) h2]

theorem readStrDrop_no_quote (q : Char) :
    ∀ cs : List Char, q ∉ cs → readStrDrop q cs = []
  | [], _ => rfl
  | [_], _ => rfl
  | c :: c2 :: rest2, h => by
    have hc : ¬ c = q := fun hcq => h (hcq ▸ List.mem_cons_self c _)
    have h2 : q ∉ c2 :: rest2 := fun hm => h (List.mem_cons_of_mem c hm)
    unfold readStrDrop
    simp [hc, readStrDrop_no_quote q (c2 :: rest2) h2]

theorem lexAux_depth_nonneg :
    ∀ (fuel : Nat) (d : Int) (cs : List Char), 0 ≤ d →
      ∀ t ∈ lexAux fuel d cs, 0 ≤ t.depth := by
  intro fuel
  induction fuel with
  | zero => intro d cs _ t ht; simp [lexAux] at ht
  | succ fuel ih =>
    intro d cs hd t ht
    match cs with
    | [] => simp [lexAux] at ht
    | c :: rest =>
      rw [lexAux] at ht
      dsimp only at ht
      repeat' split at ht
      all_goals
        first
        | exact ih _ _ hd t ht
        | (rcases List.mem_cons.mp ht with rfl | hm
           · first
             | (dsimp only; omega)
             | (dsimp only; split <;> omega)
             | (split <;> (dsimp only; omega))
           · first
             | exact ih _ _ hd t hm
             | exact ih _ _ (by omega) t hm
             | (refine ih _ _ ?_ t hm; split <;> omega)
             | simp at hm)
theorem lexAux_nil : ∀ (fuel : Nat) (d : Int), lexAux fuel d [] = [] := by
  intro fuel d
  cases fuel <;> rfl

/-- C8: the lexer and validator are total Lean functions of the input (no
failure path exists in the embedding); every token emitted by `lex` has a
non-negative depth; an unterminated single-quoted literal consumes the
whole remaining input as one string token; and an unmatched `)` clamps the
depth at a floor of zero (`lex ")"` emits its token at depth 0). -/
theorem C8_total_graceful_degradation :
    (∀ (s : String) (t : token), t ∈ lex s → 0 ≤ t.depth) ∧
    (∀ (d : Int) (cs : List Char), squote ∉ cs →
      lexAux (cs.length + 2) d (squote :: cs) =
        [⟨String.mk (squote :: cs), tkString, d⟩]) ∧
    lex ")" = [⟨")", tkSymbol, 0⟩] := by
  refine ⟨?_, ?_, by decide⟩
  · intro s t ht
    exact lexAux_depth_nonneg (s.toList.length + 1) 0 s.toList (by omega) t ht
  · intro d cs hq
    rw [lexAux]
    dsimp only
    rw [if_neg (by decide : ¬ (goIsSpace squote = true)),
        if_neg (by decide : ¬ (squote = '(')),
        if_neg (by decide : ¬ (squote = ')')),
        if_pos (by decide : (squote = squote || squote = dquote) = true),
        readStrTake_no_quote squote cs hq, readStrDrop_no_quote squote cs hq,
        if_neg (by decide : ¬ (squote = dquote)), lexAux_nil]

/-- Witness for C8: the non-negativity part applied at `lex "("`, and the
unterminated-literal part applied at the input `'a` (opening quote never
closed). -/
theorem C8_witness :
    (0 : Int) ≤ (token.mk "(" tkSymbol 0).depth ∧
    lexAux 3 0 [squote, 'a'] = [⟨String.mk [squote, 'a'], tkString, 0⟩] :=
  ⟨C8_total_graceful_degradation.1 "(" (token.mk "(" tkSymbol 0) (by decide),
   C8_total_graceful_degradation.2.1 0 ['a'] (by decide)⟩

/- ------------------------------- C3 ------------------------------- -/

theorem no_time_isTimeIdentifierAt {toks : List token}
    (H : ∀ t ∈ toks, t.kind = tkIdent → t.val ≠ "time") (j : Nat) :
    isTimeIdentifierAt toks j = false := by
  by_contra h
  rw [Bool.not_eq_false] at h
  rcases isTimeIdentifierAt_iff.mp h with ⟨t, hsome, hk, hv⟩
  exact H t (List.getElem?_mem hsome) hk hv

theorem betweenLookback_no_time {toks : List token}
    (H : ∀ t ∈ toks, t.kind = tkIdent → t.val ≠ "time")
    (start i : Nat) (depth : Int) :
    ∀ (fuel : Nat) (k : Int), betweenLookback toks start i depth fuel k = false := by
  intro fuel
  induction fuel with
  | zero => intro k; rfl
  | succ fuel ih =>
    intro k
    rw [betweenLookback]
    repeat' split
    all_goals
      first
      | rfl
      | exact ih _
      | (exfalso
         rename_i hcond
         exact absurd hcond.1 (by simp [no_time_isTimeIdentifierAt H]))

theorem whereHasTimePredicateAux_no_time {toks : List token}
    (H : ∀ t ∈ toks, t.kind = tkIdent → t.val ≠ "time") (stopN start : Nat) :
    ∀ (fuel i : Nat), whereHasTimePredicateAux toks stopN start fuel i = false := by
  intro fuel
  induction fuel with
  | zero => intro i; rfl
  | succ fuel ih =>
    intro i
    rw [whereHasTimePredicateAux]
    repeat' split
    all_goals
      first
      | rfl
      | exact ih _
      | (exfalso
         rename_i hcond
         first
         | exact absurd hcond.1 (by simp [no_time_isTimeIdentifierAt H])
         | exact absurd hcond.2.2 (by simp [betweenLookback_no_time H]))

/-- C3: the per-branch time check can only be satisfied by an identifier
token whose folded value is exactly `time`: on every token list in which
no identifier token has value `time` (e.g. when only `measure_time` is
used), `whereHasTimePredicate` returns false for every branch range. -/
theorem C3_only_time_identifier_satisfies (toks : List token) (start : Nat) (stop : Int)
    (H : ∀ t ∈ toks, t.kind = tkIdent → t.val ≠ "time") :
    whereHasTimePredicate toks start stop = false := by
  unfold whereHasTimePredicate
  exact whereHasTimePredicateAux_no_time H _ start _ start

/-- Witness for C3: the tokens of `measure_time > 5` contain no `time`
identifier, so the time check fails on the whole range. -/
theorem C3_witness : whereHasTimePredicate (lex "measure_time > 5") 0 3 = false :=
  C3_only_time_identifier_satisfies _ 0 3 (by decide)

/- ------------------------------- C5 ------------------------------- -/

theorem betweenLookback_finds {toks : List token} {start i k : Nat} {depth : Int} {tk : token}
    (hks : start ≤ k) (hk6 : i ≤ k + 6)
    (htk : toks[k]? = some tk) (htkk : tk.kind = tkIdent) (htkv : tk.val = "time")
    (hdep : tk.depth = depth) :
    ∀ (fuel : Nat) (k0 : Int), (k : Int) ≤ k0 → k0 ≤ (i : Int) - 1 →
      k0 - (k : Int) < (fuel : Int) →
      betweenLookback toks start i depth fuel k0 = true := by
  intro fuel
  induction fuel with
  | zero => intro k0 h1 h2 h3; omega
  | succ fuel ih =>
    intro k0 h1 h2 h3
    rw [betweenLookback]
    rw [if_pos (⟨by omega, by omega⟩ : (start : Int) ≤ k0 ∧ (i : Int) - 6 ≤ k0)]
    by_cases heq : k0 = (k : Int)
    · subst heq
      rw [Int.toNat_natCast, htk]
      dsimp only
      rw [if_neg (by simp [htkk] : ¬(tk.kind = tkKeyword ∧ tk.val = "not"))]
      rw [if_pos ⟨isTimeIdentifierAt_iff.mpr ⟨tk, htk, htkk, htkv⟩, hdep⟩]
    · have hlt : (k : Int) < k0 := lt_of_le_of_ne h1 (fun h => heq h.symm)
      cases hmk : toks[k0.toNat]? with
      | none => exact ih (k0 - 1) (by omega) (by omega) (by omega)
      | some t =>
        dsimp only
        by_cases hnot : t.kind = tkKeyword ∧ t.val = "not"
        · rw [if_pos hnot]; exact ih (k0 - 1) (by omega) (by omega) (by omega)
        · rw [if_neg hnot]
          by_cases htime : isTimeIdentifierAt toks k0.toNat = true ∧ t.depth = depth
          · rw [if_pos htime]
          · rw [if_neg htime]; exact ih (k0 - 1) (by omega) (by omega) (by omega)

theorem whereHasTimePredicateAux_reach {toks : List token} {stopN start i : Nat} {ti : token}
    (hstop : i < stopN) (hti : toks[i]? = some ti)
    (hcond : (isTimeIdentifierAt toks i ∧ timeFollow toks stopN i ti.depth = true) ∨
             (ti.kind = tkKeyword ∧ ti.val = "between" ∧
              betweenLookback toks start i ti.depth 7 ((i : Int) - 1) = true)) :
    ∀ (fuel j : Nat), j ≤ i → i < j + fuel →
      whereHasTimePredicateAux toks stopN start fuel j = true := by
  intro fuel
  induction fuel with
  | zero => intro j h1 h2; omega
  | succ fuel ih =>
    intro j h1 h2
    rw [whereHasTimePredicateAux]
    by_cases hji : j = i
    · subst hji
      rw [hti]
      dsimp only
      rw [if_pos hstop]
      rcases hcond with hc | hc
      · rw [if_pos hc]
      · by_cases hc1 : isTimeIdentifierAt toks j ∧ timeFollow toks stopN j ti.depth = true
        · rw [if_pos hc1]
        · rw [if_neg hc1, if_pos hc]
    · have hji' : j < i := lt_of_le_of_ne h1 hji
      have hilen : i < toks.length := (List.getElem?_eq_some_iff.mp hti).1
      cases hmj : toks[j]? with
      | none =>
        exfalso
        have := List.getElem?_eq_none_iff.mp hmj
        omega
      | some tj =>
        dsimp only
        rw [if_pos (by omega : j < stopN)]
        by_cases hc1 : isTimeIdentifierAt toks j ∧ timeFollow toks stopN j tj.depth = true
        · rw [if_pos hc1]
        · rw [if_neg hc1]
          by_cases hc2 : tj.kind = tkKeyword ∧ tj.val = "between" ∧
              betweenLookback toks start j tj.depth 7 ((j : Int) - 1) = true
          · rw [if_pos hc2]
          · rw [if_neg hc2]
            exact ih (j + 1) (by omega) (by omega)

/-- C5: whenever a branch range contains a `between` keyword token at
index `i` (within the scanned bounds) and some index `k` in the backward
window of at most 6 tokens — skipping an immediately preceding `not`, which
can never be a `time` identifier anyway — holds a `time` identifier token
at the same depth as the `between` token, the time check succeeds on that
branch. -/
theorem C5_between_backward_window (toks : List token) (start : Nat) (stop : Int)
    (i k : Nat) (ti tk : token)
    (hsi : start ≤ i)
    (hstop : i < (if stop < 0 then toks.length else stop.toNat))
    (hti : toks[i]? = some ti) (htik : ti.kind = tkKeyword) (htiv : ti.val = "between")
    (hks : start ≤ k) (hk6 : i ≤ k + 6) (hki : k < i)
    (htk : toks[k]? = some tk) (htkk : tk.kind = tkIdent) (htkv : tk.val = "time")
    (hdep : tk.depth = ti.depth) :
    whereHasTimePredicate toks start stop = true := by
  unfold whereHasTimePredicate
  have hilen : i < toks.length := (List.getElem?_eq_some_iff.mp hti).1
  refine whereHasTimePredicateAux_reach hstop hti (Or.inr ⟨htik, htiv, ?_⟩)
    (toks.length + 1) start hsi (by omega)
  exact betweenLookback_finds hks hk6 htk htkk htkv hdep 7 ((i : Int) - 1)
    (by omega) (by omega) (by omega)

/-- Witness for C5: in `time not between 1 and 2` the `between` keyword at
index 2 finds the `time` identifier at index 0 through the backward
window. -/
theorem C5_witness : whereHasTimePredicate (lex "time not between 1 and 2") 0 6 = true :=
  C5_between_backward_window (lex "time not between 1 and 2") 0 6 2 0
    ⟨"between", tkKeyword, 0⟩ ⟨"time", tkIdent, 0⟩
    (by decide) (by decide) (by decide) (by decide) (by decide)
    (by decide) (by decide) (by decide) (by decide) (by decide) (by decide)
    (by decide)

/- ------------------------------- C7 ------------------------------- -/

/-- The token at `p` is a keyword `w` at exactly depth `d`. -/
def tokIsKwAtD (toks : List token) (p : Nat) (w : String) (d : Int) : Bool :=
  match toks[p]? with
  | some t => t.kind = tkKeyword && t.val = w && t.depth = d
  | none => false

/-- Some token at an index in `[lo, p]` has depth strictly below `d`. -/
def depthDropsBefore (toks : List token) (lo p : Nat) (d : Int) : Bool :=
  (List.range (p + 1)).any (fun j =>
    decide (lo ≤ j) &&
    (match toks[j]? with | some t => decide (t.depth < d) | none => false))

theorem findKwAux_none_of_no_kw {toks : List token} {depth : Int} {selIdx : Nat}
    (Hp : ∀ p, p < toks.length → selIdx < p → tokIsKwAtD toks p "from" depth = true →
          depthDropsBefore toks (selIdx + 1) p depth = true) :
    ∀ (fuel i : Nat), selIdx < i →
      (∀ j u, selIdx < j → j < i → toks[j]? = some u → depth ≤ u.depth) →
      findNextKeywordAtDepthAux toks depth "from" fuel i = none := by
  intro fuel
  induction fuel with
  | zero => intro i _ _; rfl
  | succ fuel ih =>
    intro i hsel Hinv
    rw [findNextKeywordAtDepthAux]
    cases hmi : toks[i]? with
    | none => rfl
    | some t =>
      dsimp only
      by_cases h1 : t.depth < depth
      · rw [if_pos h1]
      · rw [if_neg h1]
        have Hinv' : ∀ j u, selIdx < j → j < i + 1 → toks[j]? = some u → depth ≤ u.depth := by
          intro j u hj1 hj2 hju
          rcases Nat.lt_or_ge j i with hj | hj
          · exact Hinv j u hj1 hj hju
          · have hji : j = i := by omega
            subst hji
            rw [hmi] at hju
            injection hju with h
            subst h
            omega
        by_cases h2 : t.depth ≠ depth
        · rw [if_pos h2]
          exact ih (i + 1) (by omega) Hinv'
        · rw [if_neg h2]
          push_neg at h2
          by_cases h3 : t.kind = tkKeyword ∧ t.val = "from"
          · exfalso
            have hfrom : tokIsKwAtD toks i "from" depth = true := by
              unfold tokIsKwAtD
              rw [hmi]
              simp [h3.1, h3.2, h2]
            have hlen : i < toks.length := (List.getElem?_eq_some_iff.mp hmi).1
            have hdrop := Hp i hlen hsel hfrom
            rcases List.any_eq_true.mp hdrop with ⟨j, hjmem, hjprop⟩
            rw [List.mem_range] at hjmem
            rcases (Bool.and_eq_true _ _).mp hjprop with ⟨hj1, hj2⟩
            rw [decide_eq_true_eq] at hj1
            cases hmj : toks[j]? with
            | none => rw [hmj] at hj2; cases hj2
            | some u =>
              rw [hmj] at hj2
              rw [decide_eq_true_eq] at hj2
              have := Hinv' j u (by omega) (by omega) hmj
              omega
          · rw [if_neg h3]
            exact ih (i + 1) (by omega) Hinv'

/-- C7: a select-site for which no `from` keyword occurs at exactly the
site's depth after the SELECT and before the depth drops below the site's
depth contributes no Issue (its `processSite` is empty); in particular
`Validate "SELECT 1"` returns `ok = true` with no issues. -/
theorem C7_select_without_from_skipped :
    (∀ (toks : List token) (selIdx : Nat) (depth : Int),
      (∀ p, p < toks.length → selIdx < p → tokIsKwAtD toks p "from" depth = true →
        depthDropsBefore toks (selIdx + 1) p depth = true) →
      processSite toks selIdx depth = []) ∧
    Validate "SELECT 1" = (true, []) := by
  constructor
  · intro toks selIdx depth Hp
    have hnone : findNextKeywordAtDepth toks (selIdx + 1) depth "from" = none := by
      unfold findNextKeywordAtDepth
      exact findKwAux_none_of_no_kw Hp (toks.length + 1) (selIdx + 1) (by omega)
        (fun j u hj1 hj2 _ => absurd hj1 (by omega))
    unfold processSite
    rw [hnone]
  · decide

/-- Witness for C7: `select 1` has no `from` keyword at all, so its
select-site at index 0, depth 0, contributes no issue. -/
theorem C7_witness : processSite (lex "select 1") 0 0 = [] :=
  C7_select_without_from_skipped.1 (lex "select 1") 0 0 (by decide)

/- ------------------------------- C6 ------------------------------- -/

/-- The character list contains no `*/` block-comment terminator. -/
def noStarSlash : List Char → Bool
  | [] => true
  | [_] => true
  | c :: c2 :: rest => !(c = '*' && c2 = '/') && noStarSlash (c2 :: rest)

/-- The character list contains no newline. -/
def noNewline (cs : List Char) : Bool := cs.all (fun c => !(c.toNat = 10))

theorem blockEats : ∀ (t us : List Char), noStarSlash t = true →
    stripCommentsAux false true (t ++ '*' :: '/' :: us) = stripCommentsAux false false us := by
  intro t
  induction t with
  | nil =>
    intro us _
    rw [List.nil_append, stripCommentsAux,
        if_neg (by decide : ¬ ((false : Bool) = true)),
        if_pos (rfl : (true : Bool) = true),
        if_pos (by decide : (('*' : Char) = '*' && ('/' : Char) = '/') = true)]
  | cons c t' ih =>
    intro us h
    cases t' with
    | nil =>
      rw [List.cons_append, List.nil_append, stripCommentsAux,
          if_neg (by decide : ¬ ((false : Bool) = true)),
          if_pos (rfl : (true : Bool) = true),
          if_neg (by simp : ¬ ((c = '*' && ('*' : Char) = '/') = true))]
      exact ih us rfl
    | cons c2 t'' =>
      have hcc : ¬ ((c = '*' && c2 = '/') = true) := by
        rw [noStarSlash] at h
        rcases (Bool.and_eq_true _ _).mp h with ⟨h1, _⟩
        simp only [Bool.not_eq_eq_eq_not, Bool.not_false] at h1
        simp [h1]
      have htail : noStarSlash (c2 :: t'') = true := by
        rw [noStarSlash] at h
        exact ((Bool.and_eq_true _ _).mp h).2
      rw [List.cons_append, List.cons_append, stripCommentsAux,
          if_neg (by decide : ¬ ((false : Bool) = true)),
          if_pos (rfl : (true : Bool) = true),
          if_neg hcc]
      exact ih us htail

theorem lineEats : ∀ (t us : List Char), noNewline t = true →
    stripCommentsAux true false (t ++ Char.ofNat 10 :: us) =
      Char.ofNat 10 :: stripCommentsAux false false us := by
  intro t
  induction t with
  | nil =>
    intro us _
    cases us with
    | nil => decide
    | cons u us' =>
      rw [List.nil_append, stripCommentsAux,
          if_pos (rfl : (true : Bool) = true),
          if_pos (by decide : (Char.ofNat 10).toNat = 10)]
  | cons c t' ih =>
    intro us h
    have hc : ¬ (c.toNat = 10) := by
      rw [noNewline, List.all_cons] at h
      rcases (Bool.and_eq_true _ _).mp h with ⟨h1, _⟩
      simpa using h1
    have htail : noNewline t' = true := by
      rw [noNewline, List.all_cons] at h
      exact ((Bool.and_eq_true _ _).mp h).2
    cases t' with
    | nil =>
      rw [List.cons_append, List.nil_append, stripCommentsAux,
          if_pos (rfl : (true : Bool) = true),
          if_neg hc]
      exact ih us rfl
    | cons c2 t'' =>
      rw [List.cons_append, List.cons_append, stripCommentsAux,
          if_pos (rfl : (true : Bool) = true),
          if_neg hc]
      exact ih us htail

/-- C6: comment stripping precedes tokenization and discards comment
contents entirely: a block comment `/* t */` whose body contains no `*/`
is removed wholesale before lexing, a line comment `-- t` without a
newline in `t` is removed up to the newline, and consequently
`Validate "SELECT * FROM mydb.s1 WHERE /* time >= ago(1h) */
measure_name = 'x'"` returns `ok = false` (the commented-out time
predicate does not count). -/
theorem C6_comments_discarded :
    (∀ (t us : List Char), noStarSlash t = true →
      stripCommentsAux false false ('/' :: '*' :: (t ++ '*' :: '/' :: us)) =
        stripCommentsAux false false us) ∧
    (∀ (t us : List Char), noNewline t = true →
      stripCommentsAux false false ('-' :: '-' :: (t ++ Char.ofNat 10 :: us)) =
        Char.ofNat 10 :: stripCommentsAux false false us) ∧
    (Validate "SELECT * FROM mydb.s1 WHERE /* time >= ago(1h) */ measure_name = \x27x\x27").1 = false := by
  refine ⟨?_, ?_, by decide⟩
  · intro t us h
    rw [stripCommentsAux,
        if_neg (by decide : ¬ ((false : Bool) = true)),
        if_neg (by decide : ¬ ((false : Bool) = true)),
        if_neg (by decide : ¬ ((('/' : Char) = '-' && ('*' : Char) = '-') = true)),
        if_pos (by decide : (('/' : Char) = '/' && ('*' : Char) = '*') = true)]
    exact blockEats t us h
  · intro t us h
    rw [stripCommentsAux,
        if_neg (by decide : ¬ ((false : Bool) = true)),
        if_neg (by decide : ¬ ((false : Bool) = true)),
        if_pos (by decide : (('-' : Char) = '-' && ('-' : Char) = '-') = true)]
    exact lineEats t us h

/-- Witness for C6: a one-character block-comment body is discarded. -/
theorem C6_witness :
    stripCommentsAux false false ('/' :: '*' :: (['x'] ++ '*' :: '/' :: ['y'])) =
      stripCommentsAux false false ['y'] :=
  C6_comments_discarded.1 ['x'] ['y'] (by decide)

/- ------------------------------- C1 ------------------------------- -/

/-- The clamp applied by the validator helpers to a negative `stop`. -/
def clampStop (toks : List token) (stop : Int) : Nat :=
  if stop < 0 then toks.length else stop.toNat

/-- Following the specification's words: index `j` holds a `Keyword("or")`
token at exactly the given depth. -/
def isOrCutAt (toks : List token) (d : Int) (j : Nat) : Bool :=
  match toks[j]? with
  | some t => t.depth = d && t.kind = tkKeyword && t.val = "or"
  | none => false

/-- Following the specification's words: all cut points of the WHERE span
`[start, stopN)`, i.e. the indices of `or` keywords at the select-site's
depth, in order. -/
def orCutPoints (toks : List token) (start stopN : Nat) (d : Int) : List Nat :=
  (List.range' start (stopN - start)).filter (fun j => isOrCutAt toks d j)

/-- Following the specification's words: the partition of `[start, stopN)`
into branches between consecutive cut points (zero cuts give the single
branch spanning the whole clause). -/
def branchesFromCuts (stopN : Nat) : Nat → List Nat → List (Nat × Nat)
  | cur, [] => [(cur, stopN)]
  | cur, c :: cs => (cur, c) :: branchesFromCuts stopN (c + 1) cs

theorem orCutPoints_nil_of_len_le {toks : List token} {d : Int} {i stopN : Nat}
    (h : toks.length ≤ i) : orCutPoints toks i stopN d = [] := by
  unfold orCutPoints
  rw [List.filter_eq_nil_iff]
  intro j hj
  have hji : i ≤ j := (List.mem_range'_1.mp hj).1
  unfold isOrCutAt
  rw [List.getElem?_eq_none (by omega)]
  simp

theorem orBranchesAux_eq {toks : List token} {depth : Int} {stopN : Nat} :
    ∀ (fuel i cur : Nat), stopN ≤ i + fuel ∨ toks.length ≤ i + fuel →
      orBranchesAux toks depth stopN fuel i cur =
        branchesFromCuts stopN cur (orCutPoints toks i stopN depth) := by
  intro fuel
  induction fuel with
  | zero =>
    intro i cur hsuf
    show [(cur, stopN)] = _
    rcases hsuf with h | h
    · unfold orCutPoints
      rw [show stopN - i = 0 from by omega]
      rfl
    · rw [orCutPoints_nil_of_len_le (by omega)]
      rfl
  | succ fuel ih =>
    intro i cur hsuf
    rw [orBranchesAux]
    cases hmi : toks[i]? with
    | none =>
      have hlen : toks.length ≤ i := List.getElem?_eq_none_iff.mp hmi
      dsimp only
      rw [orCutPoints_nil_of_len_le hlen]
      rfl
    | some t =>
      dsimp only
      have hlen : i < toks.length := (List.getElem?_eq_some_iff.mp hmi).1
      by_cases hstop : i < stopN
      · rw [if_pos hstop]
        have hr : List.range' i (stopN - i) = i :: List.range' (i + 1) (stopN - i - 1) := by
          obtain ⟨n, hn⟩ : ∃ n, stopN - i = n + 1 := ⟨stopN - i - 1, by omega⟩
          rw [hn, List.range'_succ]
          congr 1 <;> omega
        by_cases hcut : t.depth = depth ∧ t.kind = tkKeyword ∧ t.val = "or"
        · rw [if_pos hcut]
          have hcutB : isOrCutAt toks depth i = true := by
            unfold isOrCutAt
            rw [hmi]
            simp [hcut.1, hcut.2.1, hcut.2.2]
          unfold orCutPoints
          rw [hr]
          simp only [List.filter_cons, hcutB, if_true]
          rw [branchesFromCuts]
          have htl := ih (i + 1) (i + 1) (by omega)
          unfold orCutPoints at htl
          rw [show stopN - (i + 1) = stopN - i - 1 from by omega] at htl
          rw [htl]
        · rw [if_neg hcut]
          have hcutB : isOrCutAt toks depth i = false := by
            unfold isOrCutAt
            rw [hmi]
            by_contra hb
            rw [Bool.not_eq_false] at hb
            rcases (Bool.and_eq_true _ _).mp hb with ⟨hb1, hb3⟩
            rcases (Bool.and_eq_true _ _).mp hb1 with ⟨hd, hk⟩
            exact hcut ⟨by simpa using hd, by simpa using hk, by simpa using hb3⟩
          unfold orCutPoints
          rw [hr]
          simp only [List.filter_cons, hcutB, Bool.false_eq_true, if_false]
          have htl := ih (i + 1) cur (by omega)
          unfold orCutPoints at htl
          rw [show stopN - (i + 1) = stopN - i - 1 from by omega] at htl
          rw [htl]
      · rw [if_neg hstop]
        unfold orCutPoints
        rw [show stopN - i = 0 from by omega]
        rfl

theorem findTopLevelOrBranches_eq (toks : List token) (start : Nat) (stop : Int)
    (depth : Int) :
    findTopLevelOrBranches toks start stop depth =
      branchesFromCuts (clampStop toks stop) start
        (orCutPoints toks start (clampStop toks stop) depth) := by
  unfold findTopLevelOrBranches clampStop
  exact orBranchesAux_eq (toks.length + 1) start start (Or.inr (by omega))

/-- C1: for every WHERE clause span, `findTopLevelOrBranches` partitions
the span exactly at `Keyword("or")` tokens whose depth equals the
select-site's depth (zero such ORs yield the single branch spanning the
whole clause, and an OR nested one parenthesis level deeper is never a cut
point, since its depth differs); consequently
`SELECT * FROM "db"."tbl" WHERE (time > ago(1h) OR device = 'd1') AND
measure_name = 'foo'` validates with `ok = true`. -/
theorem C1_or_branch_split :
    (∀ (toks : List token) (start : Nat) (stop : Int) (depth : Int),
      findTopLevelOrBranches toks start stop depth =
        branchesFromCuts (clampStop toks stop) start
          (orCutPoints toks start (clampStop toks stop) depth)) ∧
    (∀ (toks : List token) (start stopN : Nat) (depth : Int) (j : Nat),
      j ∈ orCutPoints toks start stopN depth ↔
        (start ≤ j ∧ j < stopN ∧ isOrCutAt toks depth j = true)) ∧
    (Validate "SELECT * FROM \"db\".\"tbl\" WHERE (time > ago(1h) OR device = \x27d1\x27) AND measure_name = \x27foo\x27").1 = true := by
  refine ⟨findTopLevelOrBranches_eq, ?_, by decide⟩
  intro toks start stopN depth j
  unfold orCutPoints
  rw [List.mem_filter, List.mem_range'_1]
  constructor
  · rintro ⟨⟨h1, h2⟩, h3⟩
    exact ⟨h1, by omega, h3⟩
  · rintro ⟨h1, h2, h3⟩
    exact ⟨⟨h1, by omega⟩, h3⟩

/- --------------------------- C4 (amended) --------------------------- -/

theorem goIsLetter_false_of_not_identStart {c : Char} (h : isIdentStart c = false) :
    goIsLetter c = false := by
  simp only [isIdentStart, Bool.or_eq_false_iff] at h
  exact h.1.1

theorem toLowerChar_of_not_letter {c : Char} (h : goIsLetter c = false) :
    toLowerChar c = c := by
  have h' : ¬ (65 ≤ c.toNat ∧ c.toNat ≤ 90) := by
    intro hc
    simp [goIsLetter, hc.1, hc.2] at h
  simp [toLowerChar, h']

theorem stringMk_two_ne (c n : Char) (v : Char) : String.mk [c, n] ≠ String.mk [v] := by
  intro h
  have := congrArg String.data h
  simp at this

/-- The depth relation between two consecutive tokens of the lexer output
around parentheses: the token following a `(` is one level deeper unless
it is an immediate `)` (which restores the enclosing depth), and the token
following a `)` stays at the `)` token's own (enclosing) depth unless it
is another `)`. -/
def parenRel (t u : token) : Prop :=
  (t.kind = tkSymbol → t.val = "(" →
     (if u.kind = tkSymbol ∧ u.val = ")" then u.depth = t.depth
      else u.depth = t.depth + 1)) ∧
  (t.kind = tkSymbol → t.val = ")" →
     (if u.kind = tkSymbol ∧ u.val = ")" then
        u.depth = (if t.depth - 1 < 0 then 0 else t.depth - 1)
      else u.depth = t.depth))

theorem lexAux_head_depth :
    ∀ (fuel : Nat) (d : Int) (cs : List Char) (t : token) (ts : List token),
      lexAux fuel d cs = t :: ts →
      (t.kind = tkSymbol ∧ t.val = ")" ∧ t.depth = (if d - 1 < 0 then 0 else d - 1)) ∨
      (¬(t.kind = tkSymbol ∧ t.val = ")") ∧ t.depth = d) := by
  intro fuel
  induction fuel with
  | zero => intro d cs t ts h; simp [lexAux] at h
  | succ fuel ih =>
    intro d cs t ts h
    match cs with
    | [] => simp [lexAux] at h
    | c :: rest =>
      rw [lexAux] at h
      dsimp only at h
      by_cases hsp : goIsSpace c = true
      · rw [if_pos hsp] at h
        exact ih d rest t ts h
      · rw [if_neg hsp] at h
        by_cases hop : c = '('
        · rw [if_pos hop] at h
          injection h with h1 _
          refine Or.inr ⟨?_, by rw [← h1]⟩
          rw [← h1]
          rintro ⟨_, hv⟩
          dsimp only at hv
          exact absurd hv (by decide)
        · rw [if_neg hop] at h
          by_cases hcl : c = ')'
          · rw [if_pos hcl] at h
            injection h with h1 _
            exact Or.inl ⟨by rw [← h1], by rw [← h1], by rw [← h1]⟩
          · rw [if_neg hcl] at h
            by_cases hq : (c = squote || c = dquote) = true
            · rw [if_pos hq] at h
              by_cases hdq : c = dquote
              · rw [if_pos hdq] at h
                injection h with h1 _
                refine Or.inr ⟨?_, by rw [← h1]⟩
                rw [← h1]
                rintro ⟨hk, _⟩
                dsimp only at hk
                exact absurd hk (by decide)
              · rw [if_neg hdq] at h
                injection h with h1 _
                refine Or.inr ⟨?_, by rw [← h1]⟩
                rw [← h1]
                rintro ⟨hk, _⟩
                dsimp only at hk
                exact absurd hk (by decide)
            · rw [if_neg hq] at h
              by_cases hnum : isNumStart c = true
              · rw [if_pos hnum] at h
                injection h with h1 _
                refine Or.inr ⟨?_, by rw [← h1]⟩
                rw [← h1]
                rintro ⟨hk, _⟩
                dsimp only at hk
                exact absurd hk (by decide)
              · rw [if_neg hnum] at h
                by_cases hids : isIdentStart c = true
                · rw [if_pos hids] at h
                  by_cases hkw :
                      String.mk (toLowerList (c :: rest.takeWhile isIdentPart)) ∈ keywordList
                  · rw [if_pos hkw] at h
                    injection h with h1 _
                    refine Or.inr ⟨?_, by rw [← h1]⟩
                    rw [← h1]
                    rintro ⟨hk, _⟩
                    dsimp only at hk
                    exact absurd hk (by decide)
                  · rw [if_neg hkw] at h
                    injection h with h1 _
                    refine Or.inr ⟨?_, by rw [← h1]⟩
                    rw [← h1]
                    rintro ⟨hk, _⟩
                    dsimp only at hk
                    exact absurd hk (by decide)
                · rw [if_neg hids] at h
                  have hgl : goIsLetter c = false :=
                    goIsLetter_false_of_not_identStart (by simpa using hids)
                  cases hn : rest.head? with
                  | some n =>
                    rw [hn] at h
                    dsimp only at h
                    by_cases htwo : ((c = '>' && n = '=') || (c = '<' && (n = '=' || n = '>')) ||
                        (c = '!' && n = '=')) = true
                    · rw [if_pos htwo] at h
                      injection h with h1 _
                      refine Or.inr ⟨?_, by rw [← h1]⟩
                      rw [← h1]
                      rintro ⟨_, hv⟩
                      exact absurd hv (by
                        show String.mk [c, n] ≠ ")"
                        exact stringMk_two_ne c n ')')
                    · rw [if_neg htwo] at h
                      injection h with h1 _
                      refine Or.inr ⟨?_, by rw [← h1]⟩
                      rw [← h1]
                      rintro ⟨_, hv⟩
                      rw [toLowerChar_of_not_letter hgl] at hv
                      have := congrArg String.data hv
                      simp at this
                      exact hcl this
                  | none =>
                    rw [hn] at h
                    dsimp only at h
                    injection h with h1 _
                    refine Or.inr ⟨?_, by rw [← h1]⟩
                    rw [← h1]
                    rintro ⟨_, hv⟩
                    rw [toLowerChar_of_not_letter hgl] at hv
                    have := congrArg String.data hv
                    simp at this
                    exact hcl this

theorem head_of_mem_head? {l : List token} {y : token} (hy : y ∈ l.head?) :
    ∃ ts, l = y :: ts := by
  cases l with
  | nil => simp at hy
  | cons a ts =>
    simp only [List.head?_cons, Option.mem_def, Option.some.injEq] at hy
    exact ⟨ts, by rw [hy]⟩

theorem parenRel_of_kind_not_symbol {t u : token} (h : ¬ t.kind = tkSymbol) :
    parenRel t u :=
  ⟨fun hk _ => absurd hk h, fun hk _ => absurd hk h⟩

theorem parenRel_of_val_not_paren {t u : token} (h1 : ¬ t.val = "(") (h2 : ¬ t.val = ")") :
    parenRel t u :=
  ⟨fun _ hv => absurd hv h1, fun _ hv => absurd hv h2⟩

theorem lexAux_chain :
    ∀ (fuel : Nat) (d : Int) (cs : List Char), 0 ≤ d →
      List.Chain' parenRel (lexAux fuel d cs) := by
  intro fuel
  induction fuel with
  | zero => intro d cs _; simp [lexAux]
  | succ fuel ih =>
    intro d cs hd
    match cs with
    | [] => simp [lexAux]
    | c :: rest =>
      rw [lexAux]
      dsimp only
      by_cases hsp : goIsSpace c = true
      · rw [if_pos hsp]; exact ih d rest hd
      · rw [if_neg hsp]
        by_cases hop : c = '('
        · rw [if_pos hop]
          rw [List.chain'_cons']
          refine ⟨?_, ih (d + 1) rest (by omega)⟩
          intro y hy
          obtain ⟨ts, hts⟩ := head_of_mem_head? hy
          have hh := lexAux_head_depth fuel (d + 1) rest y ts hts
          constructor
          · intro _ _
            rcases hh with ⟨hk, hv, hdep⟩ | ⟨hnv, hdep⟩
            · rw [if_pos ⟨hk, hv⟩, hdep]
              dsimp only
              split <;> omega
            · rw [if_neg hnv, hdep]
          · intro _ hv
            exact absurd hv (by simp)
        · rw [if_neg hop]
          by_cases hcl : c = ')'
          · rw [if_pos hcl]
            rw [List.chain'_cons']
            refine ⟨?_, ih _ rest (by split <;> omega)⟩
            intro y hy
            obtain ⟨ts, hts⟩ := head_of_mem_head? hy
            have hh := lexAux_head_depth fuel (if d - 1 < 0 then 0 else d - 1) rest y ts hts
            constructor
            · intro _ hv
              exact absurd hv (by simp)
            · intro _ _
              rcases hh with ⟨hk, hv, hdep⟩ | ⟨hnv, hdep⟩
              · rw [if_pos ⟨hk, hv⟩, hdep]
              · rw [if_neg hnv, hdep]
          · rw [if_neg hcl]
            by_cases hq : (c = squote || c = dquote) = true
            · rw [if_pos hq]
              rw [List.chain'_cons']
              refine ⟨?_, ih d _ hd⟩
              intro y _
              by_cases hdq : c = dquote
              · rw [if_pos hdq]
                exact parenRel_of_kind_not_symbol (by simp)
              · rw [if_neg hdq]
                exact parenRel_of_kind_not_symbol (by simp)
            · rw [if_neg hq]
              by_cases hnum : isNumStart c = true
              · rw [if_pos hnum]
                rw [List.chain'_cons']
                exact ⟨fun y _ => parenRel_of_kind_not_symbol (by simp), ih d _ hd⟩
              · rw [if_neg hnum]
                by_cases hids : isIdentStart c = true
                · rw [if_pos hids]
                  rw [List.chain'_cons']
                  refine ⟨?_, ih d _ hd⟩
                  intro y _
                  by_cases hkw :
                      String.mk (toLowerList (c :: rest.takeWhile isIdentPart)) ∈ keywordList
                  · rw [if_pos hkw]
                    exact parenRel_of_kind_not_symbol (by simp)
                  · rw [if_neg hkw]
                    exact parenRel_of_kind_not_symbol (by simp)
                · rw [if_neg hids]
                  have hgl : goIsLetter c = false :=
                    goIsLetter_false_of_not_identStart (by simpa using hids)
                  cases hn : rest.head? with
                  | some n =>
                    dsimp only
                    by_cases htwo : ((c = '>' && n = '=') || (c = '<' && (n = '=' || n = '>')) ||
                        (c = '!' && n = '=')) = true
                    · rw [if_pos htwo]
                      rw [List.chain'_cons']
                      refine ⟨?_, ih d _ hd⟩
                      intro y _
                      exact parenRel_of_val_not_paren
                        (stringMk_two_ne c n '(') (stringMk_two_ne c n ')')
                    · rw [if_neg htwo]
                      rw [List.chain'_cons']
                      refine ⟨?_, ih d _ hd⟩
                      intro y _
                      refine parenRel_of_val_not_paren ?_ ?_ <;>
                        (dsimp only
                         rw [toLowerChar_of_not_letter hgl]
                         intro hv
                         have := congrArg String.data hv
                         simp at this
                         first | exact hop this | exact hcl this)
                  | none =>
                    dsimp only
                    refine List.chain'_singleton _

/-- C4 (amended): every `(` token is recorded at the depth in effect
before the increment and every `)` token at the depth after the decrement,
so both delimiters carry the ENCLOSING context's depth, one level LESS
than the tokens inside the parenthesized group they bound (not the same
depth as the content, as originally claimed): in every lexer output, the
token following a `(` is one level deeper unless it is the immediately
matching `)`, which restores the `(` token's depth, and the token
following a `)` stays at the `)` token's depth unless it is another `)`. -/
theorem C4_delimiters_at_enclosing_depth (s : String) :
    List.Chain' parenRel (lex s) :=
  lexAux_chain (s.toList.length + 1) 0 s.toList (by omega)

/- ------------------------------- C2 ------------------------------- -/

/-- Following the specification's words: the token at `p` (inside the
branch bounds) is an occurrence of the identifier `measure_name`. -/
def measureOccursAt (toks : List token) (stopN p : Nat) : Bool :=
  decide (p < stopN) && tokAt toks p tkIdent "measure_name"

/-- Following the specification's words: index `p` heads a valid
measure-name predicate shape — either the 6-token
`regexp_like ( measure_name , StringLiteral )` or the 3-token
`measure_name = StringLiteral`, entirely within the branch bounds. -/
def validHeadAt (toks : List token) (stopN p : Nat) : Bool :=
  (tokAt toks p tkIdent "regexp_like" && regexpPatternAt toks stopN p) ||
  (tokAt toks p tkIdent "measure_name" && eqPatternAt toks stopN p)

/-- Following the specification's words: the `measure_name` occurrence at
`p` lies inside one of the two valid shapes (as the equality shape's head,
or as the third token of a regexp shape headed at `p - 2`, which must not
begin before the branch start `lo`). -/
def coveredFrom (toks : List token) (stopN lo p : Nat) : Bool :=
  (tokAt toks p tkIdent "measure_name" && eqPatternAt toks stopN p) ||
  (decide (lo + 2 ≤ p) &&
   (tokAt toks (p - 2) tkIdent "regexp_like" && regexpPatternAt toks stopN (p - 2)))

theorem regexpPatternAt_parts {toks : List token} {stopN i : Nat}
    (h : regexpPatternAt toks stopN i = true) :
    i + 5 < stopN ∧ i + 5 < toks.length ∧
    tokAt toks (i + 1) tkSymbol "(" = true ∧
    tokAt toks (i + 2) tkIdent "measure_name" = true ∧
    tokAt toks (i + 3) tkSymbol "," = true ∧
    tokKindAt toks (i + 4) tkString = true ∧
    tokAt toks (i + 5) tkSymbol ")" = true := by
  unfold regexpPatternAt at h
  simp only [Bool.and_eq_true, decide_eq_true_eq] at h
  tauto

theorem eqPatternAt_parts {toks : List token} {stopN i : Nat}
    (h : eqPatternAt toks stopN i = true) :
    i + 2 < stopN ∧ i + 2 < toks.length ∧
    tokAt toks (i + 1) tkSymbol "=" = true ∧
    tokKindAt toks (i + 2) tkString = true := by
  unfold eqPatternAt at h
  simp only [Bool.and_eq_true, decide_eq_true_eq] at h
  tauto

theorem tokAt_false_of_other {toks : List token} {j : Nat} {k1 k2 : tokenKind}
    {v1 v2 : String} (h : tokAt toks j k1 v1 = true) (hne : ¬ (k1 = k2 ∧ v1 = v2)) :
    tokAt toks j k2 v2 = false := by
  rcases tokAt_iff.mp h with ⟨t, hs, hk, hv⟩
  unfold tokAt
  rw [hs]
  simp only [Bool.and_eq_true, decide_eq_true_eq, Bool.and_eq_false_iff]
  by_cases hk2 : t.kind = k2
  · refine Or.inr ?_
    simp only [decide_eq_false_iff_not]
    intro hv2
    exact hne ⟨hk ▸ hk2, hv ▸ hv2⟩
  · exact Or.inl (by simp [hk2])

theorem tokAt_false_of_kind {toks : List token} {j : Nat} {k1 k2 : tokenKind}
    {v : String} (h : tokKindAt toks j k1 = true) (hne : ¬ k1 = k2) :
    tokAt toks j k2 v = false := by
  rcases tokKindAt_iff.mp h with ⟨t, hs, hk⟩
  unfold tokAt
  rw [hs]
  simp only [Bool.and_eq_false_iff, decide_eq_false_iff_not]
  exact Or.inl (fun hk2 => hne (hk ▸ hk2))

theorem measureOccursAt_false_of_tokAt {toks : List token} {stopN p : Nat}
    {k : tokenKind} {v : String} (h : tokAt toks p k v = true)
    (hne : ¬ (k = tkIdent ∧ v = "measure_name")) :
    measureOccursAt toks stopN p = false := by
  unfold measureOccursAt
  rw [tokAt_false_of_other h hne]
  simp

theorem measureOccursAt_false_of_kind {toks : List token} {stopN p : Nat}
    {k : tokenKind} (h : tokKindAt toks p k = true) (hne : ¬ k = tkIdent) :
    measureOccursAt toks stopN p = false := by
  unfold measureOccursAt
  rw [tokAt_false_of_kind h hne]
  simp

theorem validHeadAt_bounds {toks : List token} {stopN p : Nat}
    (h : validHeadAt toks stopN p = true) : p < stopN ∧ p < toks.length := by
  unfold validHeadAt at h
  rcases (Bool.or_eq_true _ _).mp h with h | h
  · rcases (Bool.and_eq_true _ _).mp h with ⟨_, hp⟩
    obtain ⟨h1, h2, _⟩ := regexpPatternAt_parts hp
    omega
  · rcases (Bool.and_eq_true _ _).mp h with ⟨_, hp⟩
    obtain ⟨h1, h2, _⟩ := eqPatternAt_parts hp
    omega

theorem measureOccursAt_bounds {toks : List token} {stopN p : Nat}
    (h : measureOccursAt toks stopN p = true) : p < stopN ∧ p < toks.length := by
  unfold measureOccursAt at h
  rcases (Bool.and_eq_true _ _).mp h with ⟨h1, h2⟩
  rw [decide_eq_true_eq] at h1
  rcases tokAt_iff.mp h2 with ⟨t, hs, _, _⟩
  exact ⟨h1, (List.getElem?_eq_some_iff.mp hs).1⟩

theorem coveredFrom_shift (toks : List token) (stopN lo lo' : Nat) (hle : lo ≤ lo')
    (hmid : ∀ q, lo ≤ q → lo' ≤ q + 2 → q < lo' →
      (tokAt toks q tkIdent "regexp_like" && regexpPatternAt toks stopN q) = false)
    (p : Nat) (hp : lo' ≤ p) :
    coveredFrom toks stopN lo p = coveredFrom toks stopN lo' p := by
  unfold coveredFrom
  by_cases h2 : lo' + 2 ≤ p
  · rw [decide_eq_true (by omega : lo + 2 ≤ p), decide_eq_true (by omega : lo' + 2 ≤ p)]
  · rw [decide_eq_false (by omega : ¬ (lo' + 2 ≤ p))]
    by_cases h1 : lo + 2 ≤ p
    · rw [decide_eq_true h1]
      rw [hmid (p - 2) (by omega) (by omega) (by omega)]
      try simp
    · rw [decide_eq_false h1]
      try simp

theorem bool_false_of_not_true {b : Bool} (h : ¬ b = true) : b = false := by
  cases b
  · rfl
  · exact absurd rfl h

theorem measureAux_base_iff {toks : List token} {stopN i : Nat} {fv fi : Bool}
    (hout : stopN ≤ i ∨ toks.length ≤ i) :
    ((fv && !fi) = true ↔
      ((fv = true ∨ ∃ p, i ≤ p ∧ validHeadAt toks stopN p = true) ∧
       ¬(fi = true ∨ ∃ p, i ≤ p ∧ measureOccursAt toks stopN p = true ∧
           coveredFrom toks stopN i p = false))) := by
  have hV : ¬ ∃ p, i ≤ p ∧ validHeadAt toks stopN p = true := by
    rintro ⟨p, hp, hF⟩
    have := validHeadAt_bounds hF
    omega
  have hU : ¬ ∃ p, i ≤ p ∧ measureOccursAt toks stopN p = true ∧
      coveredFrom toks stopN i p = false := by
    rintro ⟨p, hp, hocc, _⟩
    have := measureOccursAt_bounds hocc
    omega
  constructor
  · intro h
    rcases (Bool.and_eq_true _ _).mp h with ⟨h1, h2⟩
    refine ⟨Or.inl h1, ?_⟩
    rintro (hfi | hUU)
    · rw [hfi] at h2; cases h2
    · exact hU hUU
  · rintro ⟨hV', hU'⟩
    have hfv : fv = true := by
      rcases hV' with h | h
      · exact h
      · exact absurd h hV
    have hfi : fi = false := by
      cases hfi : fi
      · rfl
      · exact absurd (Or.inl hfi) hU'
    rw [hfv, hfi]
    rfl

theorem measureAux_iff (toks : List token) (stopN : Nat) :
    ∀ (fuel i : Nat) (fv fi : Bool),
      stopN ≤ i + fuel ∨ toks.length ≤ i + fuel →
      (measureAux toks stopN fuel i fv fi = true ↔
        ((fv = true ∨ ∃ p, i ≤ p ∧ validHeadAt toks stopN p = true) ∧
         ¬(fi = true ∨ ∃ p, i ≤ p ∧ measureOccursAt toks stopN p = true ∧
             coveredFrom toks stopN i p = false))) := by
  intro fuel
  induction fuel with
  | zero =>
    intro i fv fi hsuf
    show ((fv && !fi) = true ↔ _)
    exact measureAux_base_iff (by omega)
  | succ fuel ih =>
    intro i fv fi hsuf
    rw [measureAux]
    cases hmi : toks[i]? with
    | none =>
      have hlen : toks.length ≤ i := List.getElem?_eq_none_iff.mp hmi
      dsimp only
      exact measureAux_base_iff (by omega)
    | some t =>
      dsimp only
      have hlen : i < toks.length := (List.getElem?_eq_some_iff.mp hmi).1
      by_cases hstop : i < stopN
      · rw [if_pos hstop]
        by_cases hA : t.kind = tkIdent ∧ t.val = "regexp_like" ∧
            regexpPatternAt toks stopN i = true
        · rw [if_pos hA]
          obtain ⟨hp1, hp2, hq1, hq2, hq3, hq4, hq5⟩ := regexpPatternAt_parts hA.2.2
          have htokA : tokAt toks i tkIdent "regexp_like" = true :=
            tokAt_iff.mpr ⟨t, hmi, hA.1, hA.2.1⟩
          have hVi : validHeadAt toks stopN i = true := by
            unfold validHeadAt
            rw [htokA, hA.2.2]
            rfl
          have hshift : ∀ p, i + 6 ≤ p →
              coveredFrom toks stopN i p = coveredFrom toks stopN (i + 6) p := by
            intro p hp
            refine coveredFrom_shift toks stopN i (i + 6) (by omega) ?_ p hp
            intro q hqa hqb hqc
            have hq : q = i + 4 ∨ q = i + 5 := by omega
            rcases hq with rfl | rfl
            · rw [tokAt_false_of_kind hq4 (by decide)]
              rfl
            · rw [tokAt_false_of_other hq5 (by decide)]
              rfl
          have hUiff : (∃ p, i ≤ p ∧ measureOccursAt toks stopN p = true ∧
                coveredFrom toks stopN i p = false) ↔
              (∃ p, i + 6 ≤ p ∧ measureOccursAt toks stopN p = true ∧
                coveredFrom toks stopN (i + 6) p = false) := by
            constructor
            · rintro ⟨p, hip, hocc, hcov⟩
              by_cases h6 : i + 6 ≤ p
              · exact ⟨p, h6, hocc, by rw [← hshift p h6]; exact hcov⟩
              · exfalso
                have hcases : p = i ∨ p = i + 1 ∨ p = i + 2 ∨ p = i + 3 ∨
                    p = i + 4 ∨ p = i + 5 := by omega
                rcases hcases with rfl | rfl | rfl | rfl | rfl | rfl
                · rw [measureOccursAt_false_of_tokAt htokA (by decide)] at hocc
                  cases hocc
                · rw [measureOccursAt_false_of_tokAt hq1 (by decide)] at hocc
                  cases hocc
                · have hcovT : coveredFrom toks stopN i (i + 2) = true := by
                    unfold coveredFrom
                    rw [decide_eq_true (by omega : i + 2 ≤ i + 2)]
                    rw [show i + 2 - 2 = i from by omega]
                    rw [htokA, hA.2.2]
                    simp
                  rw [hcovT] at hcov
                  cases hcov
                · rw [measureOccursAt_false_of_tokAt hq3 (by decide)] at hocc
                  cases hocc
                · rw [measureOccursAt_false_of_kind hq4 (by decide)] at hocc
                  cases hocc
                · rw [measureOccursAt_false_of_tokAt hq5 (by decide)] at hocc
                  cases hocc
            · rintro ⟨p, hip, hocc, hcov⟩
              exact ⟨p, by omega, hocc, by rw [hshift p hip]; exact hcov⟩
          rw [ih (i + 6) true fi (by omega)]
          constructor
          · rintro ⟨_, hnU⟩
            refine ⟨Or.inr ⟨i, Nat.le_refl i, hVi⟩, ?_⟩
            rintro (hfi | hU)
            · exact hnU (Or.inl hfi)
            · exact hnU (Or.inr (hUiff.mp hU))
          · rintro ⟨_, hnU⟩
            refine ⟨Or.inl rfl, ?_⟩
            rintro (hfi | hU)
            · exact hnU (Or.inl hfi)
            · exact hnU (Or.inr (hUiff.mpr hU))
        · rw [if_neg hA]
          by_cases hB : t.kind = tkIdent ∧ t.val = "measure_name"
          · rw [if_pos hB]
            have htokB : tokAt toks i tkIdent "measure_name" = true :=
              tokAt_iff.mpr ⟨t, hmi, hB.1, hB.2⟩
            by_cases hEq : eqPatternAt toks stopN i = true
            · rw [if_pos hEq]
              obtain ⟨hb1, hb2, hr1, hr2⟩ := eqPatternAt_parts hEq
              have hVi : validHeadAt toks stopN i = true := by
                unfold validHeadAt
                rw [htokB, hEq]
                simp
              have hshift : ∀ p, i + 3 ≤ p →
                  coveredFrom toks stopN i p = coveredFrom toks stopN (i + 3) p := by
                intro p hp
                refine coveredFrom_shift toks stopN i (i + 3) (by omega) ?_ p hp
                intro q hqa hqb hqc
                have hq : q = i + 1 ∨ q = i + 2 := by omega
                rcases hq with rfl | rfl
                · rw [tokAt_false_of_other hr1 (by decide)]
                  rfl
                · rw [tokAt_false_of_kind hr2 (by decide)]
                  rfl
              have hUiff : (∃ p, i ≤ p ∧ measureOccursAt toks stopN p = true ∧
                    coveredFrom toks stopN i p = false) ↔
                  (∃ p, i + 3 ≤ p ∧ measureOccursAt toks stopN p = true ∧
                    coveredFrom toks stopN (i + 3) p = false) := by
                constructor
                · rintro ⟨p, hip, hocc, hcov⟩
                  by_cases h3 : i + 3 ≤ p
                  · exact ⟨p, h3, hocc, by rw [← hshift p h3]; exact hcov⟩
                  · exfalso
                    have hcases : p = i ∨ p = i + 1 ∨ p = i + 2 := by omega
                    rcases hcases with heq | rfl | rfl
                    · rw [heq] at hcov
                      have hcovT : coveredFrom toks stopN i i = true := by
                        unfold coveredFrom
                        rw [htokB, hEq]
                        simp
                      rw [hcovT] at hcov
                      cases hcov
                    · rw [measureOccursAt_false_of_tokAt hr1 (by decide)] at hocc
                      cases hocc
                    · rw [measureOccursAt_false_of_kind hr2 (by decide)] at hocc
                      cases hocc
                · rintro ⟨p, hip, hocc, hcov⟩
                  exact ⟨p, by omega, hocc, by rw [hshift p hip]; exact hcov⟩
              rw [ih (i + 3) true fi (by omega)]
              constructor
              · rintro ⟨_, hnU⟩
                refine ⟨Or.inr ⟨i, Nat.le_refl i, hVi⟩, ?_⟩
                rintro (hfi | hU)
                · exact hnU (Or.inl hfi)
                · exact hnU (Or.inr (hUiff.mp hU))
              · rintro ⟨_, hnU⟩
                refine ⟨Or.inl rfl, ?_⟩
                rintro (hfi | hU)
                · exact hnU (Or.inl hfi)
                · exact hnU (Or.inr (hUiff.mpr hU))
            · rw [if_neg hEq]
              have hEq' : eqPatternAt toks stopN i = false := bool_false_of_not_true hEq
              have hUi : measureOccursAt toks stopN i = true ∧
                  coveredFrom toks stopN i i = false := by
                constructor
                · unfold measureOccursAt
                  rw [decide_eq_true hstop, htokB]
                  rfl
                · unfold coveredFrom
                  rw [hEq', decide_eq_false (by omega : ¬ (i + 2 ≤ i))]
                  simp
              rw [ih (i + 1) fv true (by omega)]
              constructor
              · rintro ⟨_, hnU⟩
                exact absurd (Or.inl rfl) hnU
              · rintro ⟨_, hnU⟩
                exact absurd (Or.inr ⟨i, Nat.le_refl i, hUi.1, hUi.2⟩) hnU
          · rw [if_neg hB]
            have ht2 : tokAt toks i tkIdent "measure_name" = false := by
              cases h2 : tokAt toks i tkIdent "measure_name"
              · rfl
              · rcases tokAt_iff.mp h2 with ⟨t', hs', hk', hv'⟩
                rw [hmi] at hs'
                injection hs' with he
                subst he
                exact absurd ⟨hk', hv'⟩ hB
            have hcomboD : (tokAt toks i tkIdent "regexp_like" &&
                regexpPatternAt toks stopN i) = false := by
              cases hcb : tokAt toks i tkIdent "regexp_like"
              · rfl
              · rcases tokAt_iff.mp hcb with ⟨t', hs', hk', hv'⟩
                rw [hmi] at hs'
                injection hs' with he
                subst he
                have hpatF : regexpPatternAt toks stopN i = false := by
                  cases hr : regexpPatternAt toks stopN i
                  · rfl
                  · exact absurd ⟨hk', hv', hr⟩ hA
                rw [hpatF]
                rfl
            have hVF : validHeadAt toks stopN i = false := by
              unfold validHeadAt
              rw [hcomboD, ht2]
              simp
            have hOccF : measureOccursAt toks stopN i = false := by
              unfold measureOccursAt
              rw [ht2]
              simp
            have hshift : ∀ p, i + 1 ≤ p →
                coveredFrom toks stopN i p = coveredFrom toks stopN (i + 1) p := by
              intro p hp
              refine coveredFrom_shift toks stopN i (i + 1) (by omega) ?_ p hp
              intro q hqa hqb hqc
              have hq : q = i := by omega
              subst hq
              exact hcomboD
            have hViff : (∃ p, i ≤ p ∧ validHeadAt toks stopN p = true) ↔
                (∃ p, i + 1 ≤ p ∧ validHeadAt toks stopN p = true) := by
              constructor
              · rintro ⟨p, hp, hF⟩
                rcases Nat.eq_or_lt_of_le hp with rfl | hlt
                · rw [hVF] at hF; cases hF
                · exact ⟨p, hlt, hF⟩
              · rintro ⟨p, hp, hF⟩
                exact ⟨p, by omega, hF⟩
            have hUiff : (∃ p, i ≤ p ∧ measureOccursAt toks stopN p = true ∧
                  coveredFrom toks stopN i p = false) ↔
                (∃ p, i + 1 ≤ p ∧ measureOccursAt toks stopN p = true ∧
                  coveredFrom toks stopN (i + 1) p = false) := by
              constructor
              · rintro ⟨p, hip, hocc, hcov⟩
                rcases Nat.eq_or_lt_of_le hip with rfl | hlt
                · rw [hOccF] at hocc; cases hocc
                · exact ⟨p, hlt, hocc, by rw [← hshift p hlt]; exact hcov⟩
              · rintro ⟨p, hip, hocc, hcov⟩
                exact ⟨p, by omega, hocc, by rw [hshift p hip]; exact hcov⟩
            rw [ih (i + 1) fv fi (by rcases hsuf with h | h
                                     exacts [Or.inl (by omega), Or.inr (by omega)])]
            constructor
            · rintro ⟨h1, h2⟩
              refine ⟨?_, ?_⟩
              · rcases h1 with h | h
                · exact Or.inl h
                · exact Or.inr (hViff.mpr h)
              · rintro (h | h)
                · exact h2 (Or.inl h)
                · exact h2 (Or.inr (hUiff.mp h))
            · rintro ⟨h1, h2⟩
              refine ⟨?_, ?_⟩
              · rcases h1 with h | h
                · exact Or.inl h
                · exact Or.inr (hViff.mp h)
              · rintro (h | h)
                · exact h2 (Or.inl h)
                · exact h2 (Or.inr (hUiff.mpr h))
      · rw [if_neg hstop]
        exact measureAux_base_iff (by omega)

/-- C2: for every branch range, the measure-name check succeeds iff the
branch contains at least one valid shape head — `regexp_like ( measure_name
, StringLiteral )` or `measure_name = StringLiteral` — and every occurrence
of the identifier `measure_name` in the branch lies inside such a shape
(one bad usage poisons the branch even alongside a good one); in
particular `SELECT * FROM mydb.sensors WHERE time > 10 AND measure_name =
'foo' AND measure_name != 'bar'` returns `ok = false`. -/
theorem C2_measure_check_iff :
    (∀ (toks : List token) (start : Nat) (stop : Int),
      whereHasMeasureNamePredicate toks start stop = true ↔
        ((∃ p, start ≤ p ∧ validHeadAt toks (clampStop toks stop) p = true) ∧
         (∀ p, start ≤ p → measureOccursAt toks (clampStop toks stop) p = true →
            coveredFrom toks (clampStop toks stop) start p = true))) ∧
    (Validate "SELECT * FROM mydb.sensors WHERE time > 10 AND measure_name = \x27foo\x27 AND measure_name != \x27bar\x27").1 = false := by
  refine ⟨?_, by decide⟩
  intro toks start stop
  unfold whereHasMeasureNamePredicate clampStop
  rw [measureAux_iff toks _ (toks.length + 1) start false false (Or.inr (by omega))]
  constructor
  · rintro ⟨h1, h2⟩
    refine ⟨?_, ?_⟩
    · rcases h1 with h | h
      · cases h
      · exact h
    · intro p hp hocc
      by_contra hc
      exact h2 (Or.inr ⟨p, hp, hocc, bool_false_of_not_true hc⟩)
  · rintro ⟨h1, h2⟩
    refine ⟨Or.inr h1, ?_⟩
    rintro (h | ⟨p, hp, hocc, hcov⟩)
    · cases h
    · rw [h2 p hp hocc] at hcov
      cases hcov
